import Mathlib

/-!
Shallow embedding of the core of the GRE vocabulary trainer
(`src/core.py`): the word catalog (`WordManager`), the progress
tracker (`ProgressTracker`) and the review scheduler
(`SpacedRepetitionScheduler`), together with theorems settling the
specification claims about them.

Modelling conventions:
* Python `datetime` values are rationals (hours since an arbitrary
  epoch); `timedelta(hours=h)` is addition of `h`, `.date()` is the
  floor of `t / 24`, and `isoformat` / `fromisoformat` (an order- and
  value-preserving bijection between datetimes and their textual form)
  is the identity on this representation.
* Python dicts are ordered association lists with unique keys
  (insertion order preserved, assignment to an existing key keeps its
  position, assignment to a fresh key appends).
* `datetime.now()` is passed in explicitly as a `now : ℚ` argument.
* `random.sample` and `random.shuffle` are passed in as function
  arguments; theorems assume only their contracts (a sample is a
  permutation of a sublist of the population with the requested
  length, a shuffle is a permutation).
-/

namespace GreVocab

/-- One vocabulary entry, as the dicts held in `WordManager.words`
(`src/core.py`): the fields the core reads. -/
structure Item where
  word : String
  definition : String
  posField : String
  exampleText : String
  deriving DecidableEq, Repr

/-- The word catalog: `WordManager.__init__` stores the list of word
dicts; `self._word_index` is derived from it (built once, never
mutated), so it is modelled as a derived function below. -/
structure WordManager where
  words : List Item
  deriving DecidableEq, Repr

/-- Python dict assignment `d[k] = v` on an ordered association list:
replace in place when the key is present, append when fresh. -/
def alInsert {α : Type} (idx : List (String × α)) (k : String) (v : α) :
    List (String × α) :=
  if idx.any (fun p => p.1 = k) then
    idx.map (fun p => if p.1 = k then (k, v) else p)
  else
    idx ++ [(k, v)]

/-- First binding of `k` in an ordered association list (Python dict
lookup; keys are unique by construction so first = only). -/
def alLookup {α : Type} (l : List (String × α)) (k : String) : Option α :=
  (l.find? (fun p => p.1 = k)).map (fun p => p.2)

/-- `self._word_index = {w['word']: w for w in words}`: a dict
comprehension is a left fold of dict assignments over the list. -/
def word_index (m : WordManager) : List (String × Item) :=
  m.words.foldl (fun idx w => alInsert idx w.word w) []

/-- `WordManager.get_word`: look a word up by its name in the index;
`dict.get` returns `None` on a miss. -/
def get_word (m : WordManager) (w : String) : Option Item :=
  alLookup (word_index m) w

/-- Per-word statistics dict created by
`ProgressTracker.get_word_stats` (`src/core.py` lines 71-81).
Timestamps are stored in their serialized form, modelled as `ℚ`. -/
structure WordStats where
  correct : ℕ
  incorrect : ℕ
  streak : ℕ
  last_seen : Option ℚ
  difficulty : ℤ
  next_review : Option ℚ
  total_time_ms : ℤ
  review_count : ℕ
  deriving DecidableEq, Repr

/-- The zeroed record `get_word_stats` materializes on first access. -/
def zeroStats : WordStats :=
  { correct := 0, incorrect := 0, streak := 0, last_seen := none,
    difficulty := 0, next_review := none, total_time_ms := 0,
    review_count := 0 }

/-- One entry of the `sessions` log appended by
`update_session_info`. -/
structure SessionEntry where
  date : ℚ
  reviews : ℕ
  deriving DecidableEq, Repr

/-- The in-memory progress store `self.progress`
(`ProgressTracker._load_progress` default shape). -/
structure Progress where
  word_stats : List (String × WordStats)
  sessions : List SessionEntry
  total_reviews : ℕ
  streak_days : ℕ
  last_session : Option ℚ
  deriving DecidableEq, Repr

/-- The empty store `_load_progress` returns when no file exists. -/
def emptyProgress : Progress :=
  { word_stats := [], sessions := [], total_reviews := 0,
    streak_days := 0, last_session := none }

/-- `ProgressTracker.get_word_stats`: get or create the stats dict for
a word.  Creation appends a zeroed record (fresh dict key); the
returned pair is (updated store, the word's stats). -/
def get_word_stats (p : Progress) (w : String) : Progress × WordStats :=
  match alLookup p.word_stats w with
  | some s => (p, s)
  | none =>
      ({ p with word_stats := p.word_stats ++ [(w, zeroStats)] }, zeroStats)

/-- The stats `get_word_stats` would return for `w`, without the
materialization side effect.  Used to state theorems against the
pre-call store. -/
def statsOrZero (p : Progress) (w : String) : WordStats :=
  (alLookup p.word_stats w).getD zeroStats

/-- The hour step function inside
`ProgressTracker.calculate_next_review` (lines 86-99): the if/elif
chain picking the review interval. -/
def intervalHours (correct_count incorrect_count streak : ℕ) : ℚ :=
  if incorrect_count > correct_count then 4
  else if streak = 0 then 12
  else if streak = 1 then 24
  else if streak = 2 then 72
  else if streak = 3 then 168
  else if streak = 4 then 336
  else 720

/-- `ProgressTracker.calculate_next_review`:
`datetime.now() + timedelta(hours=hours)`. -/
def calculate_next_review (now : ℚ) (correct_count incorrect_count streak : ℕ) : ℚ :=
  now + intervalHours correct_count incorrect_count streak

/-- The mutation `update_word_stats` performs on the word's own stats
dict (lines 107-126): counters, streak, clamped difficulty,
`last_seen`, accumulated time, review count and the recomputed
`next_review`. -/
def updateRecord (now : ℚ) (correct : Bool) (time_ms : ℤ) (s : WordStats) :
    WordStats :=
  let s1 :=
    if correct then
      { s with correct := s.correct + 1, streak := s.streak + 1,
               difficulty := max 0 (s.difficulty - 1) }
    else
      { s with incorrect := s.incorrect + 1, streak := 0,
               difficulty := min 10 (s.difficulty + 2) }
  let s2 :=
    { s1 with last_seen := some now,
              total_time_ms := s1.total_time_ms + time_ms,
              review_count := s1.review_count + 1 }
  let nr := calculate_next_review now s2.correct s2.incorrect s2.streak
  { s2 with next_review := some nr }

/-- Python `date()` of a timestamp: the calendar day number. -/
def dateOf (t : ℚ) : ℤ := ⌊t / 24⌋

/-- `ProgressTracker.update_session_info` (lines 132-156): day-streak
update, `last_session` stamp and the appended session record. -/
def update_session_info (now : ℚ) (p : Progress) : Progress :=
  let sd :=
    match p.last_session with
    | some ls =>
        if dateOf now = dateOf ls then p.streak_days
        else if dateOf now = dateOf ls + 1 then p.streak_days + 1
        else 1
    | none => 1
  { p with streak_days := sd, last_session := some now,
           sessions := p.sessions ++ [{ date := now, reviews := 1 }] }

/-- `ProgressTracker.update_word_stats` (lines 103-130): fetch-or-create
the record, mutate it, bump `total_reviews`, update session info.  The
trailing `save_progress` writes the store out unchanged and is modelled
by the persistence functions below. -/
def update_word_stats (now : ℚ) (p : Progress) (word : String)
    (correct : Bool) (time_ms : ℤ) : Progress :=
  let pr := get_word_stats p word
  let s := updateRecord now correct time_ms pr.2
  let p2 := { pr.1 with word_stats := alInsert pr.1.word_stats word s }
  let p3 := { p2 with total_reviews := p2.total_reviews + 1 }
  update_session_info now p3

/-- The due test of `get_due_words` (lines 165-170): due when never
seen, else when a `next_review` is present and has passed. -/
def isDue (now : ℚ) (s : WordStats) : Bool :=
  match s.last_seen with
  | none => true
  | some _ =>
      match s.next_review with
      | none => false
      | some t => decide (t ≤ now)

/-- `ProgressTracker.get_due_words` (lines 158-172): filter the
candidate list by the due test, materializing a stats record for every
candidate on the way (via `get_word_stats`). -/
def get_due_words (now : ℚ) : Progress → List String → Progress × List String
  | p, [] => (p, [])
  | p, w :: ws =>
      let pr := get_word_stats p w
      let rest := get_due_words now pr.1 ws
      if isDue now pr.2 then (rest.1, w :: rest.2) else (rest.1, rest.2)

/-- The aggregate snapshot returned by `ProgressTracker.get_statistics`
(lines 174-216).  The zero-record branch of the code omits the last two
keys; here they are present with value 0, which is what the sums give. -/
structure StatsSummary where
  total_words_seen : ℕ
  mastered_words : ℕ
  learning_words : ℕ
  difficult_words : ℕ
  total_reviews : ℕ
  streak_days : ℕ
  accuracy_rate : ℚ
  average_difficulty : ℚ
  total_correct : ℕ
  total_attempts : ℕ
  deriving DecidableEq, Repr

/-- `ProgressTracker.get_statistics`: pure aggregation over the stored
records; mutates nothing. -/
def get_statistics (p : Progress) : StatsSummary :=
  let vals := p.word_stats.map (fun x => x.2)
  let total_words := vals.length
  if total_words = 0 then
    { total_words_seen := 0, mastered_words := 0, learning_words := 0,
      difficult_words := 0, total_reviews := 0, streak_days := 0,
      accuracy_rate := 0, average_difficulty := 0, total_correct := 0,
      total_attempts := 0 }
  else
    let mastered := (vals.filter (fun s => 3 ≤ s.streak)).length
    let learning := (vals.filter (fun s => 1 ≤ s.streak ∧ s.streak < 3)).length
    let difficult := (vals.filter (fun s => 7 ≤ s.difficulty)).length
    let total_correct : ℕ := (vals.map (fun s => s.correct)).sum
    let total_attempts : ℕ := (vals.map (fun s => s.correct + s.incorrect)).sum
    let accuracy : ℚ :=
      if 0 < total_attempts then (total_correct : ℚ) / (total_attempts : ℚ) * 100
      else 0
    let avg : ℚ := ((vals.map (fun s => s.difficulty)).sum : ℚ) / (total_words : ℚ)
    { total_words_seen := total_words, mastered_words := mastered,
      learning_words := learning, difficult_words := difficult,
      total_reviews := p.total_reviews, streak_days := p.streak_days,
      accuracy_rate := accuracy, average_difficulty := avg,
      total_correct := total_correct, total_attempts := total_attempts }

/-- The error-rate component of `get_difficult_words`' sort key
(line 228): `incorrect / max(1, correct + incorrect)`. -/
def incorrectRate (s : WordStats) : ℚ :=
  (s.incorrect : ℚ) / max 1 ((s.correct : ℚ) + (s.incorrect : ℚ))

/-- The sort key of `get_difficult_words` (lines 226-229):
`(difficulty, incorrectRate)`. -/
def diffKey (x : String × WordStats) : ℚ × ℚ :=
  ((x.2.difficulty : ℚ), incorrectRate x.2)

/-- Python tuple comparison `a <= b` on pairs of numbers. -/
def tupLe (a b : ℚ × ℚ) : Prop :=
  a.1 < b.1 ∨ (a.1 = b.1 ∧ a.2 ≤ b.2)

instance tupLe.instDecidable (a b : ℚ × ℚ) : Decidable (tupLe a b) := by
  unfold tupLe
  infer_instance

/-- The order `list.sort(key=diffKey, reverse=True)` sorts by: `x`
may precede `y` exactly when `x`'s key is at least `y`'s (a stable
sort with this relation is Python's stable descending sort). -/
def diffGe (x y : String × WordStats) : Prop := tupLe (diffKey y) (diffKey x)

instance diffGe.instDecidable : DecidableRel diffGe := fun x y => by
  unfold diffGe
  infer_instance

instance tupLe.isTotal : IsTotal (ℚ × ℚ) tupLe := by
  constructor
  intro a b
  unfold tupLe
  rcases lt_trichotomy a.1 b.1 with h | h | h
  · exact Or.inl (Or.inl h)
  · rcases le_total a.2 b.2 with h2 | h2
    · exact Or.inl (Or.inr ⟨h, h2⟩)
    · exact Or.inr (Or.inr ⟨h.symm, h2⟩)
  · exact Or.inr (Or.inl h)

instance tupLe.isTrans : IsTrans (ℚ × ℚ) tupLe := by
  constructor
  intro a b c hab hbc
  unfold tupLe at *
  rcases hab with h1 | ⟨h1, h2⟩ <;> rcases hbc with h3 | ⟨h3, h4⟩
  · exact Or.inl (lt_trans h1 h3)
  · exact Or.inl (lt_of_lt_of_eq h1 h3)
  · exact Or.inl (lt_of_eq_of_lt h1 h3)
  · exact Or.inr ⟨h1.trans h3, h2.trans h4⟩

instance diffGe.isTotal : IsTotal (String × WordStats) diffGe := by
  constructor
  intro a b
  unfold diffGe
  exact tupLe.isTotal.total (diffKey b) (diffKey a)

instance diffGe.isTrans : IsTrans (String × WordStats) diffGe := by
  constructor
  intro a b c hab hbc
  unfold diffGe at *
  exact tupLe.isTrans.trans (diffKey c) (diffKey b) (diffKey a) hbc hab

/-- Python slicing `l[:n]` for an arbitrary integer `n`: a nonnegative
`n` keeps the first `n` elements, a negative `n` drops the last `-n`. -/
def pyTake {α : Type} (l : List α) (n : ℤ) : List α :=
  if 0 ≤ n then l.take n.toNat else l.take (l.length - (-n).toNat)

/-- `ProgressTracker.get_difficult_words` (lines 218-233): sort the
(word, stats) pairs descending by `(difficulty, incorrectRate)` with a
stable sort, then slice to `limit`.  In the code `limit` is a Python
`int` defaulting to `10`; `none` models an explicit `limit=None`
argument, for which Python's `[:None]` slice keeps everything. -/
def get_difficult_words (p : Progress) (limit : Option ℤ) :
    List (String × WordStats) :=
  let sorted := List.insertionSort diffGe p.word_stats
  match limit with
  | some n => pyTake sorted n
  | none => sorted

/-- Python `int()` applied to a number: truncation toward zero. -/
def pyInt (q : ℚ) : ℤ := if 0 ≤ q then ⌊q⌋ else -⌊-q⌋

/-- The seen/unseen partition loop of `get_review_session`
(lines 249-258): for each catalog word, fetch-or-create its stats;
never-seen words go to `unseen`, due seen words go to `seen`, seen
words that are not due are skipped. -/
def partitionLoop (due : List String) :
    Progress → List String → Progress × List String × List String
  | p, [] => (p, [], [])
  | p, w :: ws =>
      let pr := get_word_stats p w
      let rest := partitionLoop due pr.1 ws
      if pr.2.last_seen = none then (rest.1, rest.2.1, w :: rest.2.2)
      else if w ∈ due then (rest.1, w :: rest.2.1, rest.2.2)
      else rest

/-- The priority loop of `get_review_session` (lines 269-281):
`priority = difficulty + overdueHours / 24` where `overdueHours` is
`now - next_review` (0 when `next_review` is absent). -/
def priorityLoop (now : ℚ) : Progress → List String → Progress × List (String × ℚ)
  | p, [] => (p, [])
  | p, w :: ws =>
      let pr := get_word_stats p w
      let overdue : ℚ :=
        match pr.2.next_review with
        | some t => now - t
        | none => 0
      let rest := priorityLoop now pr.1 ws
      (rest.1, (w, (pr.2.difficulty : ℚ) + overdue / 24) :: rest.2)

/-- The order of `seen_words_with_priority.sort(key=lambda x: x[1],
reverse=True)` (line 282): descending by the priority component. -/
def prioGe (x y : String × ℚ) : Prop := y.2 ≤ x.2

instance prioGe.instDecidable : DecidableRel prioGe := fun x y => by
  unfold prioGe
  infer_instance

/-- `SpacedRepetitionScheduler.get_review_session` (lines 243-296).
`sample` stands for `random.sample` (contract: a permutation of a
sublist of the population, of length `min count population.length`) and
`shuffle` for `random.shuffle` (contract: a permutation); both are
passed in so theorems can quantify over the randomness.  Returns the
mutated store and the session list. -/
def get_review_session (now : ℚ) (m : WordManager) (p : Progress)
    (session_size : ℕ) (new_words_ratio : ℚ)
    (sample : List String → ℕ → List String)
    (shuffle : List (Option Item) → List (Option Item)) :
    Progress × List (Option Item) :=
  let all_word_names := m.words.map (fun w => w.word)
  let dres := get_due_words now p all_word_names
  let part := partitionLoop dres.2 dres.1 all_word_names
  let seen_words := part.2.1
  let unseen_words := part.2.2
  let new_words_count := pyInt ((session_size : ℚ) * new_words_ratio)
  let review_words_count : ℤ := (session_size : ℤ) - new_words_count
  let prioRes :=
    if seen_words = [] then (part.1, ([] : List (String × ℚ)))
    else priorityLoop now part.1 seen_words
  let sorted := List.insertionSort prioGe prioRes.2
  let session1 := (pyTake sorted review_words_count).map (fun x => x.1)
  let session2 :=
    if unseen_words ≠ [] ∧ session1.length < session_size then
      session1 ++
        sample unseen_words (min (session_size - session1.length) unseen_words.length)
    else session1
  (prioRes.1, shuffle (session2.map (get_word m)))

/-- The list of word names `get_review_session` has selected when it
reaches line 292 (`session_words`), before resolution against the
catalog and the final shuffle; definitionally the source of the
session's second component. -/
def sessionWords (now : ℚ) (m : WordManager) (p : Progress)
    (session_size : ℕ) (new_words_ratio : ℚ)
    (sample : List String → ℕ → List String) : List String :=
  let all_word_names := m.words.map (fun w => w.word)
  let dres := get_due_words now p all_word_names
  let part := partitionLoop dres.2 dres.1 all_word_names
  let seen_words := part.2.1
  let unseen_words := part.2.2
  let new_words_count := pyInt ((session_size : ℚ) * new_words_ratio)
  let review_words_count : ℤ := (session_size : ℤ) - new_words_count
  let prioRes :=
    if seen_words = [] then (part.1, ([] : List (String × ℚ)))
    else priorityLoop now part.1 seen_words
  let sorted := List.insertionSort prioGe prioRes.2
  let session1 := (pyTake sorted review_words_count).map (fun x => x.1)
  if unseen_words ≠ [] ∧ session1.length < session_size then
    session1 ++
      sample unseen_words (min (session_size - session1.length) unseen_words.length)
  else session1

/-! ### Persistence

`save_progress` serializes `self.progress` as a JSON document
(`json.dump`) and `_load_progress` parses it back (`json.load`).  The
document is modelled by a JSON value tree; timestamps, kept as ISO-8601
strings by the code, are modelled by their `ℚ` values (the textual form
is an order- and value-preserving bijection). -/

/-- A JSON document as written by `json.dump`. -/
inductive Json where
  | null : Json
  | num (q : ℚ) : Json
  | str (s : String) : Json
  | arr (l : List Json) : Json
  | obj (l : List (String × Json)) : Json

/-- Serialization of a nonnegative integer field. -/
def jNat (n : ℕ) : Json := Json.num (n : ℚ)

/-- Serialization of an integer field. -/
def jInt (z : ℤ) : Json := Json.num (z : ℚ)

/-- Serialization of a nullable timestamp field (`None` or an ISO
string, the latter modelled by its value). -/
def jOptTime : Option ℚ → Json
  | none => Json.null
  | some t => Json.num t

/-- The JSON object written for one word's stats dict, keys in the
insertion order of `get_word_stats`. -/
def encodeStats (s : WordStats) : Json :=
  Json.obj [("correct", jNat s.correct), ("incorrect", jNat s.incorrect),
            ("streak", jNat s.streak), ("last_seen", jOptTime s.last_seen),
            ("difficulty", jInt s.difficulty),
            ("next_review", jOptTime s.next_review),
            ("total_time_ms", jInt s.total_time_ms),
            ("review_count", jNat s.review_count)]

/-- The JSON object written for one session-log entry. -/
def encodeSession (e : SessionEntry) : Json :=
  Json.obj [("date", Json.num e.date), ("reviews", jNat e.reviews)]

/-- `ProgressTracker.save_progress` (lines 63-67): the JSON document
`json.dump` writes for `self.progress`, keys in the insertion order of
`_load_progress`'s default dict. -/
def save_progress (p : Progress) : Json :=
  Json.obj
    [("word_stats", Json.obj (p.word_stats.map (fun x => (x.1, encodeStats x.2)))),
     ("sessions", Json.arr (p.sessions.map encodeSession)),
     ("total_reviews", jNat p.total_reviews),
     ("streak_days", jNat p.streak_days),
     ("last_session", jOptTime p.last_session)]

/-- Reading an integer field back from the document. -/
def decInt : Json → Option ℤ
  | Json.num q => if q.den = 1 then some q.num else none
  | _ => none

/-- Reading a nonnegative integer field back from the document. -/
def decNat (j : Json) : Option ℕ :=
  match decInt j with
  | some z => if 0 ≤ z then some z.toNat else none
  | none => none

/-- Reading a timestamp field back from the document. -/
def decTime : Json → Option ℚ
  | Json.num q => some q
  | _ => none

/-- Reading a nullable timestamp field back from the document. -/
def decOptTime : Json → Option (Option ℚ)
  | Json.null => some none
  | Json.num q => some (some q)
  | _ => none

/-- Reading one word's stats dict back from the document. -/
def decodeStats : Json → Option WordStats
  | Json.obj [("correct", jc), ("incorrect", ji), ("streak", js),
              ("last_seen", jl), ("difficulty", jd), ("next_review", jn),
              ("total_time_ms", jt), ("review_count", jr)] => do
      let c ← decNat jc
      let i ← decNat ji
      let st ← decNat js
      let ls ← decOptTime jl
      let d ← decInt jd
      let nr ← decOptTime jn
      let tt ← decInt jt
      let rc ← decNat jr
      some { correct := c, incorrect := i, streak := st, last_seen := ls,
             difficulty := d, next_review := nr, total_time_ms := tt,
             review_count := rc }
  | _ => none

/-- Reading the whole `word_stats` mapping back. -/
def decodeStatsList : List (String × Json) → Option (List (String × WordStats))
  | [] => some []
  | (k, j) :: rest => do
      let s ← decodeStats j
      let r ← decodeStatsList rest
      some ((k, s) :: r)

/-- Reading one session-log entry back. -/
def decodeSession : Json → Option SessionEntry
  | Json.obj [("date", jd), ("reviews", jr)] => do
      let d ← decTime jd
      let r ← decNat jr
      some { date := d, reviews := r }
  | _ => none

/-- Reading the session log back. -/
def decodeSessionList : List Json → Option (List SessionEntry)
  | [] => some []
  | j :: rest => do
      let e ← decodeSession j
      let r ← decodeSessionList rest
      some (e :: r)

/-- Reading a full progress document back into the typed store shape
(the dict shape `_load_progress` hands to the rest of the tracker). -/
def decodeProgress : Json → Option Progress
  | Json.obj [("word_stats", Json.obj ws), ("sessions", Json.arr ss),
              ("total_reviews", jtr), ("streak_days", jsd),
              ("last_session", jls)] => do
      let w ← decodeStatsList ws
      let s ← decodeSessionList ss
      let tr ← decNat jtr
      let sd ← decNat jsd
      let ls ← decOptTime jls
      some { word_stats := w, sessions := s, total_reviews := tr,
             streak_days := sd, last_session := ls }
  | _ => none

/-- `ProgressTracker._load_progress` (lines 50-61): when no file exists
at the location, the fresh empty store; otherwise the parsed document
(`none` models a document that does not have the store's shape). -/
def load_progress : Option Json → Option Progress
  | none => some emptyProgress
  | some j => decodeProgress j

/-! ### The tracker as a state machine

The public operations the presentation layer can invoke, as state
transitions on the store (used to reason about reachable states). -/

/-- One invocation of a public operation of the tracker/scheduler.
`statistics` (`get_statistics`) and `mostDifficult`
(`get_difficult_words`) only read `self.progress`, so their transition
is the identity on the store. -/
inductive TrackerOp where
  | getOrCreate (w : String)
  | recordAnswer (now : ℚ) (w : String) (correct : Bool) (time_ms : ℤ)
  | dueIds (now : ℚ) (ids : List String)
  | statistics
  | mostDifficult (limit : Option ℤ)
  | buildSession (now : ℚ) (m : WordManager) (size : ℕ) (ratio : ℚ)
      (sample : List String → ℕ → List String)
      (shuffle : List (Option Item) → List (Option Item))

/-- The store transition each operation performs. -/
def applyOp (p : Progress) : TrackerOp → Progress
  | TrackerOp.getOrCreate w => (get_word_stats p w).1
  | TrackerOp.recordAnswer now w c t => update_word_stats now p w c t
  | TrackerOp.dueIds now ids => (get_due_words now p ids).1
  | TrackerOp.statistics => p
  | TrackerOp.mostDifficult _ => p
  | TrackerOp.buildSession now m size ratio sample shuffle =>
      (get_review_session now m p size ratio sample shuffle).1

/-- Run a trace of operations from a starting store. -/
def runOps (p : Progress) (ops : List TrackerOp) : Progress :=
  ops.foldl applyOp p

/-- Whether an operation invocation touches (fetches-or-creates) the
stats record of word `w`. -/
def opTouches : TrackerOp → String → Prop
  | TrackerOp.getOrCreate v, w => v = w
  | TrackerOp.recordAnswer _ v _ _, w => v = w
  | TrackerOp.dueIds _ ids, w => w ∈ ids
  | TrackerOp.statistics, _ => False
  | TrackerOp.mostDifficult _, _ => False
  | TrackerOp.buildSession _ m _ _ _ _, w => w ∈ m.words.map (fun it => it.word)

/-- Whether the trace contains a `recordAnswer` for `w`. -/
def answeredIn (ops : List TrackerOp) (w : String) : Prop :=
  ∃ op ∈ ops, ∃ now c t, op = TrackerOp.recordAnswer now w c t

/-- Whether the store holds a stats record for `w`. -/
def hasRecord (p : Progress) (w : String) : Prop :=
  alLookup p.word_stats w ≠ none

/-! ### Concrete fixtures

Small concrete catalogs and stores used to evaluate the operations at
specific inputs. -/

/-- A record that has been reviewed once and is scheduled far in the
future. -/
def seenStats : WordStats :=
  { correct := 1, incorrect := 0, streak := 1, last_seen := some 0,
    difficulty := 0, next_review := some 100, total_time_ms := 0,
    review_count := 1 }

/-- A store whose single record has been reviewed but is not due. -/
def seenStore : Progress :=
  { word_stats := [("alpha", seenStats)], sessions := [],
    total_reviews := 1, streak_days := 1, last_session := some 0 }

/-- A record carrying a future `next_review` but no `last_seen`, as a
hand-written progress file can contain. -/
def unseenFutureStats : WordStats :=
  { correct := 0, incorrect := 0, streak := 0, last_seen := none,
    difficulty := 0, next_review := some 100, total_time_ms := 0,
    review_count := 0 }

/-- A store holding only `unseenFutureStats`. -/
def unseenFutureStore : Progress :=
  { word_stats := [("alpha", unseenFutureStats)], sessions := [],
    total_reviews := 0, streak_days := 0, last_session := none }

/-- A one-entry catalog. -/
def oneItem : Item :=
  { word := "alpha", definition := "d", posField := "n", exampleText := "e" }

/-- The catalog holding only `oneItem`. -/
def oneCatalog : WordManager := { words := [oneItem] }

/-- First of two catalog entries sharing the word text "run". -/
def runNoun : Item :=
  { word := "run", definition := "a jog", posField := "noun", exampleText := "" }

/-- Second of two catalog entries sharing the word text "run". -/
def runVerb : Item :=
  { word := "run", definition := "to move fast", posField := "verb",
    exampleText := "" }

/-- A catalog with two distinct entries whose word texts collide. -/
def dupCatalog : WordManager := { words := [runNoun, runVerb] }

/-- Scenario record A: difficulty 8, 1 correct, 9 incorrect. -/
def statsA : WordStats :=
  { correct := 1, incorrect := 9, streak := 0, last_seen := some 0,
    difficulty := 8, next_review := some 1, total_time_ms := 0,
    review_count := 10 }

/-- Scenario record B: difficulty 8, 5 correct, 5 incorrect. -/
def statsB : WordStats :=
  { correct := 5, incorrect := 5, streak := 0, last_seen := some 0,
    difficulty := 8, next_review := some 1, total_time_ms := 0,
    review_count := 10 }

/-- Scenario record C: difficulty 3. -/
def statsC : WordStats :=
  { correct := 2, incorrect := 1, streak := 1, last_seen := some 0,
    difficulty := 3, next_review := some 1, total_time_ms := 0,
    review_count := 3 }

/-- The store of the `mostDifficult` scenario: records A, B, C. -/
def abcStore : Progress :=
  { word_stats := [("A", statsA), ("B", statsB), ("C", statsC)],
    sessions := [], total_reviews := 23, streak_days := 1,
    last_session := some 0 }

/-- A store with eleven records. -/
def elevenStore : Progress :=
  { word_stats :=
      [("k0", zeroStats), ("k1", zeroStats), ("k2", zeroStats),
       ("k3", zeroStats), ("k4", zeroStats), ("k5", zeroStats),
       ("k6", zeroStats), ("k7", zeroStats), ("k8", zeroStats),
       ("k9", zeroStats), ("k10", zeroStats)],
    sessions := [], total_reviews := 0, streak_days := 0,
    last_session := none }

/-- A deterministic stand-in for `random.sample`: the first `n`
elements of the population (a valid sample). -/
def takeSample (l : List String) (n : ℕ) : List String := l.take n

/-- A whole answer history applied to one word's record: the per-record
mutation of `update_word_stats`, folded over a list of
`(now, correct, elapsedMs)` answers. -/
def runAnswers (s : WordStats) (l : List (ℚ × Bool × ℤ)) : WordStats :=
  l.foldl (fun acc a => updateRecord a.1 a.2.1 a.2.2 acc) s

/-! ### Lemmas: association-list lookups and record materialization -/

theorem alLookup_cons {α : Type} (x : String × α) (l : List (String × α))
    (k : String) :
    alLookup (x :: l) k = if x.1 = k then some x.2 else alLookup l k := by
  by_cases h : x.1 = k
  · simp [alLookup, List.find?_cons_of_pos, h]
  · simp [alLookup, List.find?_cons_of_neg, h]

theorem alLookup_append {α : Type} (l₁ l₂ : List (String × α)) (k : String) :
    alLookup (l₁ ++ l₂) k =
      match alLookup l₁ k with
      | some v => some v
      | none => alLookup l₂ k := by
  induction l₁ with
  | nil => simp [alLookup]
  | cons x xs ih =>
      rw [List.cons_append, alLookup_cons, alLookup_cons]
      by_cases h : x.1 = k
      · simp [h]
      · simp [h, ih]

theorem get_word_stats_snd (p : Progress) (v : String) :
    (get_word_stats p v).2 = statsOrZero p v := by
  unfold get_word_stats statsOrZero
  cases h : alLookup p.word_stats v <;> simp [h]

theorem get_word_stats_fst_lookup (p : Progress) (v w : String) :
    alLookup ((get_word_stats p v).1).word_stats w =
      if w = v then some (statsOrZero p v) else alLookup p.word_stats w := by
  unfold get_word_stats statsOrZero
  cases h : alLookup p.word_stats v with
  | some s =>
      by_cases hw : w = v
      · subst hw; simp [h]
      · simp [hw]
  | none =>
      simp only
      rw [alLookup_append]
      by_cases hw : w = v
      · subst hw; simp [h, alLookup_cons]
      · have hvw : v ≠ w := fun hh => hw hh.symm
        cases hl : alLookup p.word_stats w <;>
          simp [hl, hw, alLookup_cons, hvw, alLookup]

theorem statsOrZero_get_word_stats (p : Progress) (v w : String) :
    statsOrZero ((get_word_stats p v).1) w = statsOrZero p w := by
  by_cases hw : w = v
  · subst hw
    simp [statsOrZero, get_word_stats_fst_lookup]
  · simp [statsOrZero, get_word_stats_fst_lookup, hw]

theorem get_due_words_fst_lookup (now : ℚ) (ws : List String) (p : Progress)
    (w : String) :
    alLookup ((get_due_words now p ws).1).word_stats w =
      if w ∈ ws then some (statsOrZero p w) else alLookup p.word_stats w := by
  induction ws generalizing p with
  | nil => simp [get_due_words]
  | cons x xs ih =>
      have hfst : (get_due_words now p (x :: xs)).1 =
          (get_due_words now (get_word_stats p x).1 xs).1 := by
        simp only [get_due_words]
        cases isDue now (get_word_stats p x).2 <;> simp
      rw [hfst, ih]
      by_cases hmem : w ∈ xs
      · simp [hmem, statsOrZero_get_word_stats, List.mem_cons]
      · rw [get_word_stats_fst_lookup]
        by_cases hw : w = x
        · subst hw; simp [hmem]
        · simp [hmem, hw, List.mem_cons]

theorem statsOrZero_get_due_words (now : ℚ) (ws : List String) (p : Progress)
    (w : String) :
    statsOrZero ((get_due_words now p ws).1) w = statsOrZero p w := by
  unfold statsOrZero
  rw [get_due_words_fst_lookup]
  by_cases hmem : w ∈ ws <;> simp [hmem, statsOrZero]

theorem get_due_words_snd (now : ℚ) (ws : List String) (p : Progress) :
    (get_due_words now p ws).2 =
      ws.filter (fun w => isDue now (statsOrZero p w)) := by
  induction ws generalizing p with
  | nil => simp [get_due_words]
  | cons x xs ih =>
      simp only [get_due_words, get_word_stats_snd]
      have hxs : (get_due_words now (get_word_stats p x).1 xs).2 =
          xs.filter (fun w => isDue now (statsOrZero p w)) := by
        rw [ih]
        exact List.filter_congr fun a _ => by
          rw [statsOrZero_get_word_stats]
      cases hdue : isDue now (statsOrZero p x) <;>
        simp [hxs, List.filter_cons, hdue]

theorem alLookup_map_replace {α : Type} (l : List (String × α)) (v : String)
    (s : α) (w : String) :
    alLookup (l.map (fun p => if p.1 = v then (v, s) else p)) w =
      if w = v then (if l.any (fun x => x.1 = v) then some s else none)
      else alLookup l w := by
  induction l with
  | nil => by_cases hw : w = v <;> simp [alLookup, hw]
  | cons x xs ih =>
      by_cases hx : x.1 = v
      · simp only [List.map_cons, hx, if_pos]
        rw [alLookup_cons, alLookup_cons]
        by_cases hw : w = v
        · subst hw; simp [hx]
        · have : ¬(v = w) := fun hh => hw hh.symm
          simp only [this, if_neg, ih, hw]
          have : ¬(x.1 = w) := by rw [hx]; exact fun hh => hw hh.symm
          simp [this]
      · simp only [List.map_cons, if_neg hx]
        by_cases hxw : x.1 = w
        · have hw : ¬(w = v) := by rw [← hxw]; exact hx
          simp [alLookup_cons, hxw, hw]
        · by_cases hw : w = v
          · subst hw
            simp only [alLookup_cons, if_neg hxw, ih, if_pos rfl, List.any_cons]
            have hcond :
                (decide (x.1 = w) || xs.any fun x => decide (x.1 = w)) =
                  (xs.any fun x => decide (x.1 = w)) := by
              cases hq : decide (x.1 = w)
              · simp
              · exact absurd (of_decide_eq_true hq) hx
            rw [if_pos (by trivial)]
            by_cases hb : (xs.any fun x => decide (x.1 = w)) = true
            · have hb2 :
                  (decide (x.1 = w) || xs.any fun x => decide (x.1 = w)) = true := by
                rw [hcond]; exact hb
              rw [if_pos hb, if_pos hb2]
              simp
            · have hb2 :
                  ¬((decide (x.1 = w) || xs.any fun x => decide (x.1 = w)) = true) := by
                rw [hcond]; exact hb
              rw [if_neg hb, if_neg hb2]
              simp
          · simp [alLookup_cons, hxw, hw, ih]

theorem alLookup_any_eq_false {α : Type} (l : List (String × α)) (v : String)
    (h : l.any (fun x => x.1 = v) = false) : alLookup l v = none := by
  induction l with
  | nil => rfl
  | cons x xs ih =>
      simp only [List.any_cons, Bool.or_eq_false_iff] at h
      rw [alLookup_cons]
      have hx : ¬(x.1 = v) := by
        intro hh
        simp [hh] at h
      simp [hx, ih h.2]

theorem alLookup_alInsert {α : Type} (l : List (String × α)) (v : String)
    (s : α) (w : String) :
    alLookup (alInsert l v s) w = if w = v then some s else alLookup l w := by
  unfold alInsert
  by_cases hany : l.any (fun x => x.1 = v)
  · rw [if_pos hany, alLookup_map_replace]
    by_cases hw : w = v <;> simp [hw, hany]
  · rw [if_neg hany, alLookup_append]
    by_cases hw : w = v
    · subst hw
      rw [alLookup_any_eq_false l w (Bool.eq_false_iff.mpr hany)]
      simp [alLookup_cons]
    · have hvw : ¬(v = w) := fun hh => hw hh.symm
      cases hl : alLookup l w <;> simp [hl, hw, alLookup_cons, hvw, alLookup]

theorem get_word_stats_fst_sessions (p : Progress) (v : String) :
    (get_word_stats p v).1.sessions = p.sessions := by
  unfold get_word_stats
  cases alLookup p.word_stats v <;> simp

theorem get_word_stats_fst_total_reviews (p : Progress) (v : String) :
    (get_word_stats p v).1.total_reviews = p.total_reviews := by
  unfold get_word_stats
  cases alLookup p.word_stats v <;> simp

theorem get_word_stats_fst_streak_days (p : Progress) (v : String) :
    (get_word_stats p v).1.streak_days = p.streak_days := by
  unfold get_word_stats
  cases alLookup p.word_stats v <;> simp

theorem get_word_stats_fst_last_session (p : Progress) (v : String) :
    (get_word_stats p v).1.last_session = p.last_session := by
  unfold get_word_stats
  cases alLookup p.word_stats v <;> simp

theorem update_word_stats_lookup (now : ℚ) (p : Progress) (v : String)
    (c : Bool) (t : ℤ) (w : String) :
    alLookup (update_word_stats now p v c t).word_stats w =
      if w = v then some (updateRecord now c t (statsOrZero p v))
      else alLookup p.word_stats w := by
  unfold update_word_stats update_session_info
  simp only [get_word_stats_snd]
  rw [alLookup_alInsert]
  by_cases hw : w = v
  · simp [hw]
  · simp [hw, get_word_stats_fst_lookup]

theorem update_word_stats_sessions (now : ℚ) (p : Progress) (v : String)
    (c : Bool) (t : ℤ) :
    (update_word_stats now p v c t).sessions =
      p.sessions ++ [{ date := now, reviews := 1 }] := by
  unfold update_word_stats update_session_info
  simp [get_word_stats_fst_sessions]

theorem update_word_stats_total_reviews (now : ℚ) (p : Progress) (v : String)
    (c : Bool) (t : ℤ) :
    (update_word_stats now p v c t).total_reviews = p.total_reviews + 1 := by
  unfold update_word_stats update_session_info
  simp [get_word_stats_fst_total_reviews]

theorem update_word_stats_last_session (now : ℚ) (p : Progress) (v : String)
    (c : Bool) (t : ℤ) :
    (update_word_stats now p v c t).last_session = some now := by
  unfold update_word_stats update_session_info
  simp

theorem partitionLoop_fst_lookup (due : List String) (ws : List String)
    (p : Progress) (w : String) :
    alLookup ((partitionLoop due p ws).1).word_stats w =
      if w ∈ ws then some (statsOrZero p w) else alLookup p.word_stats w := by
  induction ws generalizing p with
  | nil => simp [partitionLoop]
  | cons x xs ih =>
      have hfst : (partitionLoop due p (x :: xs)).1 =
          (partitionLoop due (get_word_stats p x).1 xs).1 := by
        simp only [partitionLoop]
        by_cases h1 : (get_word_stats p x).2.last_seen = none
        · simp [h1]
        · by_cases h2 : x ∈ due <;> simp [h1, h2]
      rw [hfst, ih]
      by_cases hmem : w ∈ xs
      · simp [hmem, statsOrZero_get_word_stats, List.mem_cons]
      · rw [get_word_stats_fst_lookup]
        by_cases hw : w = x
        · subst hw; simp [hmem]
        · simp [hmem, hw, List.mem_cons]

theorem statsOrZero_partitionLoop (due : List String) (ws : List String)
    (p : Progress) (w : String) :
    statsOrZero ((partitionLoop due p ws).1) w = statsOrZero p w := by
  unfold statsOrZero
  rw [partitionLoop_fst_lookup]
  by_cases hmem : w ∈ ws <;> simp [hmem, statsOrZero]

theorem partitionLoop_seen (due : List String) (ws : List String) (p : Progress) :
    (partitionLoop due p ws).2.1 =
      ws.filter
        (fun v => decide (¬(statsOrZero p v).last_seen = none ∧ v ∈ due)) := by
  induction ws generalizing p with
  | nil => simp [partitionLoop]
  | cons x xs ih =>
      simp only [partitionLoop, get_word_stats_snd]
      have hxs : (partitionLoop due (get_word_stats p x).1 xs).2.1 =
          xs.filter
            (fun v => decide (¬(statsOrZero p v).last_seen = none ∧ v ∈ due)) := by
        rw [ih]
        exact List.filter_congr fun a _ => by
          rw [statsOrZero_get_word_stats]
      rw [List.filter_cons]
      by_cases h1 : (statsOrZero p x).last_seen = none
      · simp [h1, hxs]
      · by_cases h2 : x ∈ due <;> simp [h1, h2, hxs]

theorem partitionLoop_unseen (due : List String) (ws : List String) (p : Progress) :
    (partitionLoop due p ws).2.2 =
      ws.filter (fun v => decide ((statsOrZero p v).last_seen = none)) := by
  induction ws generalizing p with
  | nil => simp [partitionLoop]
  | cons x xs ih =>
      simp only [partitionLoop, get_word_stats_snd]
      have hxs : (partitionLoop due (get_word_stats p x).1 xs).2.2 =
          xs.filter (fun v => decide ((statsOrZero p v).last_seen = none)) := by
        rw [ih]
        exact List.filter_congr fun a _ => by
          rw [statsOrZero_get_word_stats]
      rw [List.filter_cons]
      by_cases h1 : (statsOrZero p x).last_seen = none
      · simp [h1, hxs]
      · by_cases h2 : x ∈ due <;> simp [h1, h2, hxs]

theorem priorityLoop_fst_lookup (now : ℚ) (ws : List String) (p : Progress)
    (w : String) :
    alLookup ((priorityLoop now p ws).1).word_stats w =
      if w ∈ ws then some (statsOrZero p w) else alLookup p.word_stats w := by
  induction ws generalizing p with
  | nil => simp [priorityLoop]
  | cons x xs ih =>
      have hfst : (priorityLoop now p (x :: xs)).1 =
          (priorityLoop now (get_word_stats p x).1 xs).1 := by
        simp only [priorityLoop]
      rw [hfst, ih]
      by_cases hmem : w ∈ xs
      · simp [hmem, statsOrZero_get_word_stats, List.mem_cons]
      · rw [get_word_stats_fst_lookup]
        by_cases hw : w = x
        · subst hw; simp [hmem]
        · simp [hmem, hw, List.mem_cons]

theorem priorityLoop_snd_keys (now : ℚ) (ws : List String) (p : Progress) :
    ((priorityLoop now p ws).2).map (fun x => x.1) = ws := by
  induction ws generalizing p with
  | nil => simp [priorityLoop]
  | cons x xs ih => simp only [priorityLoop, List.map_cons, ih]

theorem isDue_iff (now : ℚ) (s : WordStats) :
    isDue now s = true ↔
      (s.last_seen = none ∨ ∃ u, s.next_review = some u ∧ u ≤ now) := by
  unfold isDue
  cases hl : s.last_seen <;> cases hn : s.next_review <;> simp [hl, hn]

theorem runAnswers_difficulty_bounds (l : List (ℚ × Bool × ℤ)) :
    ∀ s : WordStats, 0 ≤ s.difficulty → s.difficulty ≤ 10 →
      0 ≤ (runAnswers s l).difficulty ∧ (runAnswers s l).difficulty ≤ 10 := by
  induction l with
  | nil => intro s h0 h1; exact ⟨h0, h1⟩
  | cons a rest ih =>
      intro s h0 h1
      have hd : 0 ≤ (updateRecord a.1 a.2.1 a.2.2 s).difficulty ∧
          (updateRecord a.1 a.2.1 a.2.2 s).difficulty ≤ 10 := by
        cases hc : a.2.1 <;> simp [updateRecord] <;> omega
      have hrest := ih (updateRecord a.1 a.2.1 a.2.2 s) hd.1 hd.2
      simpa [runAnswers, List.foldl_cons] using hrest

theorem get_review_session_fst_lookup (now : ℚ) (m : WordManager)
    (p : Progress) (size : ℕ) (ratio : ℚ)
    (sample : List String → ℕ → List String)
    (shuffle : List (Option Item) → List (Option Item)) (w : String) :
    alLookup ((get_review_session now m p size ratio sample shuffle).1).word_stats w =
      if w ∈ m.words.map (fun it => it.word) then some (statsOrZero p w)
      else alLookup p.word_stats w := by
  simp only [get_review_session]
  by_cases hseen :
      (partitionLoop (get_due_words now p (m.words.map fun it => it.word)).2
        (get_due_words now p (m.words.map fun it => it.word)).1
        (m.words.map fun it => it.word)).2.1 = []
  · rw [if_pos hseen]
    rw [partitionLoop_fst_lookup]
    by_cases hw : w ∈ m.words.map (fun it => it.word)
    · rw [if_pos hw, if_pos hw, statsOrZero_get_due_words]
    · rw [if_neg hw, if_neg hw, get_due_words_fst_lookup, if_neg hw]
  · rw [if_neg hseen]
    rw [priorityLoop_fst_lookup]
    by_cases hwseen : w ∈
        (partitionLoop (get_due_words now p (m.words.map fun it => it.word)).2
          (get_due_words now p (m.words.map fun it => it.word)).1
          (m.words.map fun it => it.word)).2.1
    · have hwn : w ∈ m.words.map (fun it => it.word) := by
        rw [partitionLoop_seen] at hwseen
        exact (List.mem_filter.mp hwseen).1
      rw [if_pos hwseen, if_pos hwn, statsOrZero_partitionLoop,
        statsOrZero_get_due_words]
    · rw [if_neg hwseen, partitionLoop_fst_lookup]
      by_cases hw : w ∈ m.words.map (fun it => it.word)
      · rw [if_pos hw, if_pos hw, statsOrZero_get_due_words]
      · rw [if_neg hw, if_neg hw, get_due_words_fst_lookup, if_neg hw]

theorem applyOp_hasRecord (p : Progress) (op : TrackerOp) (w : String) :
    hasRecord (applyOp p op) w ↔ hasRecord p w ∨ opTouches op w := by
  cases op with
  | getOrCreate v =>
      simp only [applyOp, opTouches, hasRecord]
      rw [get_word_stats_fst_lookup]
      by_cases hw : w = v
      · subst hw; simp
      · have hvw : ¬(v = w) := fun hh => hw hh.symm
        simp [hw, hvw]
  | recordAnswer now v c t =>
      simp only [applyOp, opTouches, hasRecord]
      rw [update_word_stats_lookup]
      by_cases hw : w = v
      · subst hw; simp
      · have hvw : ¬(v = w) := fun hh => hw hh.symm
        simp [hw, hvw]
  | dueIds now ids =>
      simp only [applyOp, opTouches, hasRecord]
      rw [get_due_words_fst_lookup]
      by_cases hw : w ∈ ids <;> simp [hw]
  | statistics => simp [applyOp, opTouches, hasRecord]
  | mostDifficult l => simp [applyOp, opTouches, hasRecord]
  | buildSession now m size ratio sample shuffle =>
      simp only [applyOp, opTouches, hasRecord]
      rw [get_review_session_fst_lookup]
      by_cases hw : w ∈ m.words.map (fun it => it.word) <;> simp [hw]

theorem runOps_hasRecord (ops : List TrackerOp) : ∀ (p : Progress) (w : String),
    hasRecord (runOps p ops) w ↔
      hasRecord p w ∨ ∃ op ∈ ops, opTouches op w := by
  induction ops with
  | nil => intro p w; simp [runOps]
  | cons o rest ih =>
      intro p w
      have hstep : runOps p (o :: rest) = runOps (applyOp p o) rest := rfl
      rw [hstep, ih, applyOp_hasRecord]
      constructor
      · rintro ((h | h) | ⟨op, hop, h⟩)
        · exact Or.inl h
        · exact Or.inr ⟨o, List.mem_cons_self o rest, h⟩
        · exact Or.inr ⟨op, List.mem_cons_of_mem o hop, h⟩
      · rintro (h | ⟨op, hop, h⟩)
        · exact Or.inl (Or.inl h)
        · rcases List.mem_cons.mp hop with heq | hmem
          · subst heq; exact Or.inl (Or.inr h)
          · exact Or.inr ⟨op, hmem, h⟩

/-! ### The claims -/

/-- Claim C1: `recordAnswer` sets `next_review` to `now` plus the hour
step function of the updated record: 4 hours whenever
`incorrect > correct` regardless of streak; otherwise 12, 24, 72, 168,
336 hours for streaks 0, 1, 2, 3, 4 and 720 hours for every streak at
least 5; and the streak intervals strictly increase along
0, 1, 2, 3, 4, 5+. -/
theorem claim_C1_interval (now : ℚ) (p : Progress) (w : String) (c : Bool)
    (t : ℤ) :
    (∃ s', alLookup (update_word_stats now p w c t).word_stats w = some s' ∧
      s'.next_review =
        some (now + intervalHours s'.correct s'.incorrect s'.streak)) ∧
    (∀ cc ic st, cc < ic → intervalHours cc ic st = 4) ∧
    (∀ cc ic, ic ≤ cc →
      intervalHours cc ic 0 = 12 ∧ intervalHours cc ic 1 = 24 ∧
      intervalHours cc ic 2 = 72 ∧ intervalHours cc ic 3 = 168 ∧
      intervalHours cc ic 4 = 336) ∧
    (∀ cc ic st, ic ≤ cc → 5 ≤ st → intervalHours cc ic st = 720) ∧
    (∀ cc ic st, ic ≤ cc → st ≤ 4 →
      intervalHours cc ic st < intervalHours cc ic (st + 1)) := by
  refine ⟨?_, ?_, ?_, ?_, ?_⟩
  · refine ⟨updateRecord now c t (statsOrZero p w), ?_, ?_⟩
    · rw [update_word_stats_lookup]
      simp
    · cases c <;> simp [updateRecord, calculate_next_review]
  · intro cc ic st h
    simp [intervalHours, h]
  · intro cc ic h
    have hn : ¬(cc < ic) := Nat.not_lt.mpr h
    refine ⟨?_, ?_, ?_, ?_, ?_⟩ <;> simp [intervalHours, hn]
  · intro cc ic st h h5
    have hn : ¬(cc < ic) := Nat.not_lt.mpr h
    simp only [intervalHours]
    rw [if_neg hn, if_neg (by omega), if_neg (by omega), if_neg (by omega),
      if_neg (by omega), if_neg (by omega)]
  · intro cc ic st h h4
    have hn : ¬(cc < ic) := Nat.not_lt.mpr h
    interval_cases st <;> simp [intervalHours, hn] <;> norm_num

/-- Claim C1 witness: the interval step function evaluated at concrete
counts, through `claim_C1_interval`. -/
theorem claim_C1_interval_witness :
    intervalHours 0 1 7 = 4 ∧ intervalHours 3 1 0 = 12 ∧
    intervalHours 5 2 4 = 336 ∧ intervalHours 9 0 9 = 720 ∧
    intervalHours 2 1 3 < intervalHours 2 1 4 :=
  ⟨(claim_C1_interval 0 emptyProgress "a" true 0).2.1 0 1 7 (by decide),
   ((claim_C1_interval 0 emptyProgress "a" true 0).2.2.1 3 1 (by decide)).1,
   ((claim_C1_interval 0 emptyProgress "a" true 0).2.2.1 5 2 (by decide)).2.2.2.2,
   (claim_C1_interval 0 emptyProgress "a" true 0).2.2.2.1 9 0 9 (by decide)
     (by decide),
   (claim_C1_interval 0 emptyProgress "a" true 0).2.2.2.2 2 1 3 (by decide)
     (by decide)⟩

/-- Claim C4: a correct answer maps difficulty to
`max 0 (difficulty - 1)` and an incorrect one to
`min 10 (difficulty + 2)`, so starting from a zeroed record any
sequence of recorded answers leaves the difficulty an integer in
`[0, 10]`. -/
theorem claim_C4_difficulty_clamped (l : List (ℚ × Bool × ℤ)) :
    (0 ≤ (runAnswers zeroStats l).difficulty ∧
      (runAnswers zeroStats l).difficulty ≤ 10) ∧
    (∀ now t s, (updateRecord now true t s).difficulty =
        max 0 (s.difficulty - 1) ∧
      (updateRecord now false t s).difficulty = min 10 (s.difficulty + 2)) := by
  constructor
  · exact runAnswers_difficulty_bounds l zeroStats (by decide) (by decide)
  · intro now t s
    constructor <;> simp [updateRecord]

/-- Claim C10: recording an answer for a word leaves every other
word's record exactly as it was (creating none); besides that word's
record, only `total_reviews`, the day-streak fields and the appended
session-log entry change. -/
theorem claim_C10_frame (now : ℚ) (p : Progress) (w v : String) (c : Bool)
    (t : ℤ) (hvw : v ≠ w) :
    alLookup (update_word_stats now p w c t).word_stats v =
      alLookup p.word_stats v ∧
    (update_word_stats now p w c t).sessions =
      p.sessions ++ [{ date := now, reviews := 1 }] ∧
    (update_word_stats now p w c t).total_reviews = p.total_reviews + 1 ∧
    (update_word_stats now p w c t).last_session = some now := by
  refine ⟨?_, update_word_stats_sessions now p w c t,
    update_word_stats_total_reviews now p w c t,
    update_word_stats_last_session now p w c t⟩
  rw [update_word_stats_lookup, if_neg hvw]

/-- Claim C10 witness: the frame property at a concrete store and
distinct words. -/
theorem claim_C10_frame_witness :
    alLookup (update_word_stats 0 emptyProgress "a" true 0).word_stats "b" =
      alLookup emptyProgress.word_stats "b" ∧
    (update_word_stats 0 emptyProgress "a" true 0).sessions =
      emptyProgress.sessions ++ [{ date := 0, reviews := 1 }] ∧
    (update_word_stats 0 emptyProgress "a" true 0).total_reviews =
      emptyProgress.total_reviews + 1 ∧
    (update_word_stats 0 emptyProgress "a" true 0).last_session = some 0 :=
  claim_C10_frame 0 emptyProgress "a" "b" true 0 (by decide)

/-- Claim C3 counterexample: a stored record can carry a strictly
future `next_review` together with an absent `last_seen` (nothing in
the loaded document rules it out); `get_due_words` then returns the
word even though its `next_review` is strictly in the future, so the
claim's exclusion clause fails as stated. -/
theorem claim_C3_counterexample :
    (get_due_words 0 unseenFutureStore ["alpha"]).2 = ["alpha"] ∧
    (statsOrZero unseenFutureStore "alpha").next_review = some 100 ∧
    (0 : ℚ) < 100 := by
  refine ⟨?_, rfl, by norm_num⟩
  rfl

/-- Claim C3 (amended): `get_due_words` returns, in input order,
exactly the candidates whose record (a zeroed one when absent) has no
`last_seen` or has a `next_review` at or before `now`; in particular
every candidate without a record is returned, and a candidate whose
record has `last_seen` set and a strictly future `next_review` is not
returned (records with a `next_review` but no `last_seen` are returned
as never-reviewed, which is where the unamended exclusion fails). -/
theorem claim_C3_dueIds (now : ℚ) (p : Progress) (ws : List String) :
    (get_due_words now p ws).2 =
      ws.filter (fun w => decide ((statsOrZero p w).last_seen = none ∨
        ∃ u, (statsOrZero p w).next_review = some u ∧ u ≤ now)) ∧
    (∀ w ∈ ws, alLookup p.word_stats w = none →
      w ∈ (get_due_words now p ws).2) ∧
    (∀ w u s, alLookup p.word_stats w = some s → s.last_seen ≠ none →
      s.next_review = some u → now < u → w ∉ (get_due_words now p ws).2) := by
  have heq : (get_due_words now p ws).2 =
      ws.filter (fun w => decide ((statsOrZero p w).last_seen = none ∨
        ∃ u, (statsOrZero p w).next_review = some u ∧ u ≤ now)) := by
    rw [get_due_words_snd]
    refine List.filter_congr fun a _ => ?_
    by_cases h : ((statsOrZero p a).last_seen = none ∨
        ∃ u, (statsOrZero p a).next_review = some u ∧ u ≤ now)
    · rw [(isDue_iff now (statsOrZero p a)).mpr h, decide_eq_true h]
    · rw [decide_eq_false h]
      cases hb : isDue now (statsOrZero p a)
      · rfl
      · exact absurd ((isDue_iff now (statsOrZero p a)).mp hb) h
  refine ⟨heq, ?_, ?_⟩
  · intro w hw hnone
    rw [heq]
    refine List.mem_filter.mpr ⟨hw, ?_⟩
    refine decide_eq_true (Or.inl ?_)
    simp [statsOrZero, hnone, zeroStats]
  · intro w u s hs hls hnr hu hmem
    rw [heq] at hmem
    have hpred := of_decide_eq_true (List.mem_filter.mp hmem).2
    have hsz : statsOrZero p w = s := by simp [statsOrZero, hs]
    rw [hsz] at hpred
    rcases hpred with h1 | ⟨u', hu', hle⟩
    · exact hls h1
    · rw [hnr] at hu'
      have : u = u' := by injection hu'
      subst this
      exact absurd hle (not_le.mpr hu)

/-- Claim C3 witness: on a store with one reviewed, future-scheduled
record, a recordless candidate is returned and the scheduled one is
not. -/
theorem claim_C3_dueIds_witness :
    "beta" ∈ (get_due_words 0 seenStore ["alpha", "beta"]).2 ∧
    "alpha" ∉ (get_due_words 0 seenStore ["alpha", "beta"]).2 :=
  ⟨(claim_C3_dueIds 0 seenStore ["alpha", "beta"]).2.1 "beta" (by decide)
      (by decide),
   (claim_C3_dueIds 0 seenStore ["alpha", "beta"]).2.2 "alpha" 100 seenStats
      (by decide) (by decide) (by decide) (by norm_num)⟩

/-- Claim C5 counterexample: a single `getOrCreate` invocation on the
empty store materializes a record for "foo" although `recordAnswer`
was never invoked for it, so record-existence is not equivalent to
having been answered. -/
theorem claim_C5_counterexample :
    hasRecord (runOps emptyProgress [TrackerOp.getOrCreate "foo"]) "foo" ∧
    ¬ answeredIn [TrackerOp.getOrCreate "foo"] "foo" := by
  constructor
  · intro h
    exact Option.noConfusion h
  · rintro ⟨op, hop, now, c, t, heq⟩
    rcases List.mem_cons.mp hop with rfl | hmem
    · exact TrackerOp.noConfusion heq
    · exact absurd hmem (List.not_mem_nil op)

/-- Claim C7 counterexample: with eleven stored records and the
default argument (`limit` defaults to 10 in the code),
`get_difficult_words` returns only ten entries, not the full sorted
sequence, so an absent limit is not unbounded. -/
theorem claim_C7_counterexample :
    (get_difficult_words elevenStore (some 10)).length = 10 ∧
    elevenStore.word_stats.length = 11 := by
  constructor
  · have h : get_difficult_words elevenStore (some 10) =
        (List.insertionSort diffGe elevenStore.word_stats).take 10 := by
      simp [get_difficult_words, pyTake]
    rw [h, List.length_take,
      (List.perm_insertionSort diffGe elevenStore.word_stats).length_eq]
    rfl
  · rfl

/-- Claim C7 (amended): `get_difficult_words` sorts the (id, record)
pairs descending by the lexicographic key (difficulty, incorrectRate)
with a stable sort and truncates to the first `limit` entries; an
explicit `limit=None` returns the full sorted sequence, but an absent
limit defaults to 10 rather than being unbounded.  The A/B/C scenario
returns [A, B]. -/
theorem claim_C7_mostDifficult :
    (∀ p : Progress, List.Sorted diffGe (get_difficult_words p none) ∧
      List.Perm (get_difficult_words p none) p.word_stats) ∧
    (∀ (p : Progress) (n : ℕ),
      List.Sorted diffGe (get_difficult_words p (some (n : ℤ))) ∧
      List.Subperm (get_difficult_words p (some (n : ℤ))) p.word_stats ∧
      (get_difficult_words p (some (n : ℤ))).length =
        min n p.word_stats.length ∧
      get_difficult_words p (some (n : ℤ)) =
        (get_difficult_words p none).take n) ∧
    get_difficult_words abcStore (some 2) = [("A", statsA), ("B", statsB)] := by
  have hsome : ∀ (p : Progress) (n : ℕ), get_difficult_words p (some (n : ℤ)) =
      (List.insertionSort diffGe p.word_stats).take n := by
    intro p n
    simp [get_difficult_words, pyTake, Int.toNat_natCast]
  refine ⟨?_, ?_, ?_⟩
  · intro p
    exact ⟨List.sorted_insertionSort diffGe p.word_stats,
      List.perm_insertionSort diffGe p.word_stats⟩
  · intro p n
    rw [hsome]
    refine ⟨?_, ?_, ?_, ?_⟩
    · exact List.Pairwise.sublist (List.take_sublist n _)
        (List.sorted_insertionSort diffGe p.word_stats)
    · exact ((List.take_sublist n _).subperm).trans
        ((List.perm_insertionSort diffGe p.word_stats).subperm)
    · rw [List.length_take, (List.perm_insertionSort diffGe p.word_stats).length_eq]
    · rfl
  · have hBC : diffGe ("B", statsB) ("C", statsC) := by
      unfold diffGe tupLe
      refine Or.inl ?_
      norm_num [diffKey, statsB, statsC]
    have hAB : diffGe ("A", statsA) ("B", statsB) := by
      unfold diffGe tupLe
      refine Or.inr ⟨?_, ?_⟩ <;>
        norm_num [diffKey, incorrectRate, statsA, statsB, max_def]
    have hsorted : List.insertionSort diffGe abcStore.word_stats =
        [("A", statsA), ("B", statsB), ("C", statsC)] := by
      show List.orderedInsert diffGe ("A", statsA)
          (List.orderedInsert diffGe ("B", statsB)
            (List.orderedInsert diffGe ("C", statsC)
              (List.insertionSort diffGe []))) = _
      rw [List.insertionSort, List.orderedInsert,
        List.orderedInsert, if_pos hBC, List.orderedInsert, if_pos hAB]
    have h2 : get_difficult_words abcStore (some 2) =
        (List.insertionSort diffGe abcStore.word_stats).take 2 := by
      simp [get_difficult_words, pyTake]
    rw [h2, hsorted]
    rfl

/-- Claim C5 (amended): in every store reachable from the empty store
through the public operations, a record exists for an item iff some
invoked operation touched it: `recordAnswer` or `getOrCreate` on the
item, a `dueIds` call listing it among the candidates, or a
`buildSession` whose catalog contains it (`statistics` and
`mostDifficult` never create records). -/
theorem claim_C5_records (ops : List TrackerOp) (w : String) :
    hasRecord (runOps emptyProgress ops) w ↔ ∃ op ∈ ops, opTouches op w := by
  rw [runOps_hasRecord]
  have hempty : ¬ hasRecord emptyProgress w := by
    intro h
    exact h rfl
  simp [hempty]

theorem alLookup_foldl_insert (ws : List Item) :
    ∀ (idx : List (String × Item)) (w : String),
      alLookup (ws.foldl (fun i it => alInsert i it.word it) idx) w =
        match ws.reverse.find? (fun it => decide (it.word = w)) with
        | some it => some it
        | none => alLookup idx w := by
  induction ws with
  | nil => intro idx w; rfl
  | cons x xs ih =>
      intro idx w
      rw [List.foldl_cons, ih, List.reverse_cons, List.find?_append]
      cases hf : xs.reverse.find? (fun it => decide (it.word = w)) with
      | some it => simp [hf]
      | none =>
          simp only [hf, Option.none_or]
          by_cases hx : x.word = w
          · simp [List.find?, hx, alLookup_alInsert]
          · have hwx : ¬(w = x.word) := fun hh => hx hh.symm
            simp [List.find?, hx, hwx, alLookup_alInsert]

theorem get_word_eq_find_last (m : WordManager) (w : String) :
    get_word m w =
      m.words.reverse.find? (fun it => decide (it.word = w)) := by
  unfold get_word word_index
  rw [alLookup_foldl_insert]
  cases hf : m.words.reverse.find? (fun it => decide (it.word = w)) <;> rfl

theorem get_word_some_mem (m : WordManager) (w : String) (it : Item)
    (h : get_word m w = some it) : it ∈ m.words ∧ it.word = w := by
  rw [get_word_eq_find_last] at h
  refine ⟨List.mem_reverse.mp (List.mem_of_find?_eq_some h), ?_⟩
  have hps := List.find?_some h
  exact of_decide_eq_true hps

theorem get_word_of_mem_words (m : WordManager) (w : String)
    (h : w ∈ m.words.map (fun it => it.word)) :
    ∃ it, get_word m w = some it := by
  rw [get_word_eq_find_last]
  rcases List.mem_map.mp h with ⟨it, hmem, hw⟩
  have hsome : (m.words.reverse.find? (fun it => decide (it.word = w))).isSome := by
    rw [List.find?_isSome]
    exact ⟨it, List.mem_reverse.mpr hmem, decide_eq_true hw⟩
  rcases Option.isSome_iff_exists.mp hsome with ⟨it2, hit2⟩
  exact ⟨it2, hit2⟩

/-- Claim C6 counterexample: in the code the catalog's only identifier
is the word text itself (`_word_index = {w['word']: w}`); two distinct
entries sharing a word text collide in the index, the later one wins,
and the index holds a single key, so no identifier resolves to the
first entry and the claimed unique-id-despite-shared-word lookups do
not exist. -/
theorem claim_C6_counterexample :
    get_word dupCatalog "run" = some runVerb ∧
    runNoun ≠ runVerb ∧
    runNoun ∈ dupCatalog.words ∧
    (word_index dupCatalog).map (fun x => x.1) = ["run"] := by
  refine ⟨rfl, by decide, ?_, rfl⟩
  show runNoun ∈ [runNoun, runVerb]
  exact List.mem_cons_self runNoun [runVerb]

/-- Claim C6 (amended): the identifier `get_word` looks entries up by
is the word text; for every catalog whose entries carry pairwise
distinct word texts, `get_word id` returns exactly the unique entry
whose word equals `id`, and `None` when no entry has that word.
Entries sharing a word text collide in the index (the later entry
wins), so they cannot carry distinct identifiers. -/
theorem claim_C6_lookup (ws : List Item) (w : String) (it : Item)
    (hnd : (ws.map (fun x => x.word)).Nodup) :
    (get_word { words := ws } w = some it ↔ it ∈ ws ∧ it.word = w) ∧
    (get_word { words := ws } w = none ↔
      w ∉ ws.map (fun x => x.word)) := by
  constructor
  · constructor
    · exact fun h => get_word_some_mem { words := ws } w it h
    · rintro ⟨hmem, hw⟩
      rcases get_word_of_mem_words { words := ws } w
          (List.mem_map.mpr ⟨it, hmem, hw⟩) with ⟨it2, hit2⟩
      rcases get_word_some_mem { words := ws } w it2 hit2 with ⟨hmem2, hw2⟩
      have : it2 = it :=
        List.inj_on_of_nodup_map hnd hmem2 hmem (by rw [hw2, hw])
      rw [hit2, this]
  · constructor
    · intro hnone hmemw
      rcases get_word_of_mem_words { words := ws } w hmemw with ⟨it2, hit2⟩
      rw [hnone] at hit2
      exact Option.noConfusion hit2
    · intro hnot
      cases hg : get_word { words := ws } w with
      | none => rfl
      | some it2 =>
          rcases get_word_some_mem { words := ws } w it2 hg with ⟨hmem2, hw2⟩
          exact absurd (List.mem_map.mpr ⟨it2, hmem2, hw2⟩) hnot

/-- Claim C6 witness: the lookup characterization on a one-entry
catalog, for a present and an absent identifier. -/
theorem claim_C6_lookup_witness :
    (get_word { words := [oneItem] } "alpha" = some oneItem ↔
      oneItem ∈ [oneItem] ∧ oneItem.word = "alpha") ∧
    (get_word { words := [oneItem] } "beta" = none ↔
      "beta" ∉ [oneItem].map (fun x => x.word)) :=
  ⟨(claim_C6_lookup [oneItem] "alpha" oneItem (by decide)).1,
   (claim_C6_lookup [oneItem] "beta" oneItem (by decide)).2⟩

theorem decInt_jInt (z : ℤ) : decInt (jInt z) = some z := by
  simp [decInt, jInt]

theorem decNat_jNat (n : ℕ) : decNat (jNat n) = some n := by
  have h : jNat n = jInt (n : ℤ) := by simp [jNat, jInt]
  simp [decNat, h, decInt_jInt]

theorem decOptTime_jOptTime (o : Option ℚ) : decOptTime (jOptTime o) = some o := by
  cases o <;> rfl

theorem decodeStats_encodeStats (s : WordStats) :
    decodeStats (encodeStats s) = some s := by
  simp [encodeStats, decodeStats, decNat_jNat, decInt_jInt, decOptTime_jOptTime]

theorem decodeStatsList_encode (l : List (String × WordStats)) :
    decodeStatsList (l.map (fun x => (x.1, encodeStats x.2))) = some l := by
  induction l with
  | nil => rfl
  | cons x xs ih => simp [decodeStatsList, decodeStats_encodeStats, ih]

theorem decodeSession_encodeSession (e : SessionEntry) :
    decodeSession (encodeSession e) = some e := by
  simp [encodeSession, decodeSession, decNat_jNat, decTime]

theorem decodeSessionList_encode (l : List SessionEntry) :
    decodeSessionList (l.map encodeSession) = some l := by
  induction l with
  | nil => rfl
  | cons x xs ih => simp [decodeSessionList, decodeSession_encodeSession, ih]

/-- Claim C8: persisting a store with `save_progress` and reloading
the written document with `_load_progress` reproduces an identical
store: every field of every per-item record, the global counters,
`last_session` and the sessions log are all recovered exactly. -/
theorem claim_C8_roundtrip (p : Progress) :
    load_progress (some (save_progress p)) = some p := by
  simp [load_progress, save_progress, decodeProgress, decodeStatsList_encode,
    decodeSessionList_encode, decNat_jNat, decOptTime_jOptTime]

theorem pyTake_sublist {α : Type} (l : List α) (n : ℤ) :
    List.Sublist (pyTake l n) l := by
  unfold pyTake
  split
  · exact List.take_sublist _ _
  · exact List.take_sublist _ _

theorem get_review_session_snd (now : ℚ) (m : WordManager) (p : Progress)
    (size : ℕ) (ratio : ℚ) (sample : List String → ℕ → List String)
    (shuffle : List (Option Item) → List (Option Item)) :
    (get_review_session now m p size ratio sample shuffle).2 =
      shuffle ((sessionWords now m p size ratio sample).map (get_word m)) := rfl

theorem sessionWords_subset (now : ℚ) (m : WordManager) (p : Progress)
    (size : ℕ) (ratio : ℚ) (sample : List String → ℕ → List String)
    (hsample : ∀ l n, List.Subperm (sample l n) l) :
    ∀ v ∈ sessionWords now m p size ratio sample,
      v ∈ m.words.map (fun w => w.word) := by
  intro v hv
  unfold sessionWords at hv
  set names := m.words.map (fun w => w.word) with hnames
  set dres := get_due_words now p names with hdres
  set part := partitionLoop dres.2 dres.1 names with hpart
  set rc := (size : ℤ) - pyInt ((size : ℚ) * ratio) with hrc
  set prioRes :=
    if part.2.1 = [] then (part.1, ([] : List (String × ℚ)))
    else priorityLoop now part.1 part.2.1 with hprio
  set sorted := List.insertionSort prioGe prioRes.2 with hsorted
  set session1 := (pyTake sorted rc).map
    (fun x : String × ℚ => x.1) with hs1
  have hseensub : ∀ x, x ∈ part.2.1 → x ∈ names := by
    intro x hx
    rw [hpart, partitionLoop_seen] at hx
    exact (List.mem_filter.mp hx).1
  have hunsub : ∀ x, x ∈ part.2.2 → x ∈ names := by
    intro x hx
    rw [hpart, partitionLoop_unseen] at hx
    exact (List.mem_filter.mp hx).1
  have hs1sub : ∀ x, x ∈ session1 → x ∈ names := by
    intro x hx
    rw [hs1] at hx
    rcases List.mem_map.mp hx with ⟨pr, hpr, rfl⟩
    have hpr2 : pr ∈ sorted := (pyTake_sublist sorted rc).subset hpr
    have hpr3 : pr ∈ prioRes.2 :=
      (List.perm_insertionSort prioGe prioRes.2).subset hpr2
    by_cases hempty : part.2.1 = []
    · rw [hprio, if_pos hempty] at hpr3
      exact absurd hpr3 (List.not_mem_nil pr)
    · rw [hprio, if_neg hempty] at hpr3
      have hkey : pr.1 ∈ ((priorityLoop now part.1 part.2.1).2).map
          (fun x => x.1) := List.mem_map_of_mem (fun x => x.1) hpr3
      rw [priorityLoop_snd_keys] at hkey
      exact hseensub pr.1 hkey
  by_cases hcond : part.2.2 ≠ [] ∧ session1.length < size
  · rw [if_pos hcond] at hv
    rcases List.mem_append.mp hv with h | h
    · exact hs1sub v h
    · exact hunsub v ((hsample part.2.2 _).subset h)
  · rw [if_neg hcond] at hv
    exact hs1sub v hv

/-- Claim C9: every element of the sequence `get_review_session`
returns resolves to an actual catalog entry: each selected id comes
from the catalog's own word list, every such id resolves through the
index, and so the returned sequence never contains a not-found
placeholder. -/
theorem claim_C9_resolution (now : ℚ) (m : WordManager) (p : Progress)
    (size : ℕ) (ratio : ℚ) (sample : List String → ℕ → List String)
    (shuffle : List (Option Item) → List (Option Item))
    (hsample : ∀ l n, List.Subperm (sample l n) l)
    (hshuffle : ∀ l : List (Option Item), List.Perm (shuffle l) l) :
    ∀ x ∈ (get_review_session now m p size ratio sample shuffle).2,
      ∃ it, x = some it ∧ it ∈ m.words := by
  intro x hx
  rw [get_review_session_snd] at hx
  have hx2 : x ∈ (sessionWords now m p size ratio sample).map (get_word m) :=
    (hshuffle _).subset hx
  rcases List.mem_map.mp hx2 with ⟨v, hv, rfl⟩
  have hvn : v ∈ m.words.map (fun w => w.word) :=
    sessionWords_subset now m p size ratio sample hsample v hv
  rcases get_word_of_mem_words m v (by
    rcases List.mem_map.mp hvn with ⟨it, hit, hw⟩
    exact List.mem_map.mpr ⟨it, hit, hw⟩) with ⟨it, hit⟩
  rcases get_word_some_mem m v it hit with ⟨hmem, _⟩
  exact ⟨it, hit, hmem⟩

theorem mem_session1_aux (now : ℚ) (pst : Progress) (seen : List String)
    (rc : ℤ) (x : String × ℚ)
    (hx : x ∈ pyTake (List.insertionSort prioGe
        (if seen = [] then (pst, ([] : List (String × ℚ)))
         else priorityLoop now pst seen).2) rc) :
    x.1 ∈ seen := by
  have hx2 := (pyTake_sublist _ rc).subset hx
  have hx3 := (List.perm_insertionSort prioGe _).subset hx2
  by_cases hempty : seen = []
  · rw [if_pos hempty] at hx3
    exact absurd hx3 (List.not_mem_nil x)
  · rw [if_neg hempty] at hx3
    have hkey := List.mem_map_of_mem (fun y : String × ℚ => y.1) hx3
    rw [priorityLoop_snd_keys] at hkey
    exact hkey

theorem sessionWords_nodup (now : ℚ) (m : WordManager) (p : Progress)
    (size : ℕ) (ratio : ℚ) (sample : List String → ℕ → List String)
    (hnd : (m.words.map (fun w => w.word)).Nodup)
    (hsample : ∀ l n, List.Subperm (sample l n) l) :
    (sessionWords now m p size ratio sample).Nodup := by
  unfold sessionWords
  set names := m.words.map (fun w => w.word) with hnames
  set dres := get_due_words now p names with hdres
  set part := partitionLoop dres.2 dres.1 names with hpart
  set rc := (size : ℤ) - pyInt ((size : ℚ) * ratio) with hrc
  set prioRes :=
    if part.2.1 = [] then (part.1, ([] : List (String × ℚ)))
    else priorityLoop now part.1 part.2.1 with hprio
  set sorted := List.insertionSort prioGe prioRes.2 with hsorted
  set session1 := (pyTake sorted rc).map
    (fun x : String × ℚ => x.1) with hs1
  have hseenf : part.2.1 = names.filter
      (fun v => decide (¬(statsOrZero dres.1 v).last_seen = none ∧
        v ∈ dres.2)) := by
    rw [hpart, partitionLoop_seen]
  have hunseenf : part.2.2 = names.filter
      (fun v => decide ((statsOrZero dres.1 v).last_seen = none)) := by
    rw [hpart, partitionLoop_unseen]
  have hseen_nodup : part.2.1.Nodup := by
    rw [hseenf]
    exact hnd.filter _
  have hunseen_nodup : part.2.2.Nodup := by
    rw [hunseenf]
    exact hnd.filter _
  have hs1seen : ∀ x ∈ session1, x ∈ part.2.1 := by
    intro x hx
    rw [hs1] at hx
    rcases List.mem_map.mp hx with ⟨pr, hpr, rfl⟩
    rw [hsorted, hprio] at hpr
    exact mem_session1_aux now part.1 part.2.1 rc pr hpr
  have hs1_nodup : session1.Nodup := by
    by_cases hempty : part.2.1 = []
    · have : prioRes.2 = [] := by rw [hprio, if_pos hempty]
      rw [hs1, hsorted, this]
      simp [pyTake]
    · have hkeys : (prioRes.2).map (fun x : String × ℚ => x.1) = part.2.1 := by
        rw [hprio, if_neg hempty]
        exact priorityLoop_snd_keys now part.2.1 part.1
      have hsorted_keys_nodup :
          (sorted.map (fun x : String × ℚ => x.1)).Nodup := by
        have hperm : List.Perm (sorted.map (fun x : String × ℚ => x.1))
            ((prioRes.2).map (fun x : String × ℚ => x.1)) :=
          (List.perm_insertionSort prioGe prioRes.2).map _
        rw [hkeys] at hperm
        exact hperm.nodup_iff.mpr hseen_nodup
      have hsub : List.Sublist ((pyTake sorted rc).map
          (fun x : String × ℚ => x.1)) (sorted.map (fun x : String × ℚ => x.1)) :=
        (pyTake_sublist sorted rc).map _
      rw [hs1]
      exact hsorted_keys_nodup.sublist hsub
  by_cases hcond : part.2.2 ≠ [] ∧ session1.length < size
  · rw [if_pos hcond]
    rcases hsample part.2.2 (min (size - session1.length) part.2.2.length)
      with ⟨l2, hp2, hsub2⟩
    refine hs1_nodup.append (hp2.nodup_iff.mp (hunseen_nodup.sublist hsub2)) ?_
    intro a ha hamem
    have haseen := hs1seen a ha
    have haun : a ∈ part.2.2 := hsub2.subset (hp2.symm.subset hamem)
    rw [hseenf] at haseen
    rw [hunseenf] at haun
    have h1 := of_decide_eq_true (List.mem_filter.mp haseen).2
    have h2 := of_decide_eq_true (List.mem_filter.mp haun).2
    exact absurd h2 h1.1
  · rw [if_neg hcond]
    exact hs1_nodup

theorem sessionFinal_length_le (size : ℕ) (session1 unseen : List String)
    (sample : List String → ℕ → List String)
    (hsamplelen : ∀ l n, (sample l n).length = min n l.length)
    (hs1len : session1.length ≤ size) :
    (if unseen ≠ [] ∧ session1.length < size then
       session1 ++ sample unseen (min (size - session1.length) unseen.length)
     else session1).length ≤ size := by
  split
  · rw [List.length_append, hsamplelen]
    omega
  · exact hs1len

theorem sessionFinal_length_all (size : ℕ) (session1 unseen : List String)
    (sample : List String → ℕ → List String)
    (hsamplelen : ∀ l n, (sample l n).length = min n l.length)
    (hs1 : session1 = []) (hsz : size ≤ unseen.length) :
    (if unseen ≠ [] ∧ session1.length < size then
       session1 ++ sample unseen (min (size - session1.length) unseen.length)
     else session1).length = size := by
  subst hs1
  by_cases hnil : unseen = []
  · have hsz0 : size = 0 := by
      rw [hnil] at hsz
      simpa using hsz
    rw [if_neg (by simp [hnil])]
    simp [hsz0]
  · by_cases hsz0 : size = 0
    · rw [if_neg (by simp [hsz0])]
      simp [hsz0]
    · rw [if_pos ⟨hnil, by simpa using Nat.pos_of_ne_zero hsz0⟩]
      rw [List.length_append, hsamplelen]
      simp
      omega

theorem sessionWords_length_le (now : ℚ) (m : WordManager) (p : Progress)
    (size : ℕ) (ratio : ℚ) (sample : List String → ℕ → List String)
    (hsamplelen : ∀ l n, (sample l n).length = min n l.length)
    (hr0 : 0 ≤ ratio) (hr1 : ratio ≤ 1) :
    (sessionWords now m p size ratio sample).length ≤ size := by
  unfold sessionWords
  set names := m.words.map (fun w => w.word) with hnames
  set dres := get_due_words now p names with hdres
  set part := partitionLoop dres.2 dres.1 names with hpart
  set nwc := pyInt ((size : ℚ) * ratio) with hnwc
  set rc := (size : ℤ) - nwc with hrc
  set prioRes :=
    if part.2.1 = [] then (part.1, ([] : List (String × ℚ)))
    else priorityLoop now part.1 part.2.1 with hprio
  set sorted := List.insertionSort prioGe prioRes.2 with hsorted
  set session1 := (pyTake sorted rc).map
    (fun x : String × ℚ => x.1) with hs1
  have hq : (0 : ℚ) ≤ (size : ℚ) * ratio :=
    mul_nonneg (Nat.cast_nonneg size) hr0
  have hnwc0 : 0 ≤ nwc := by
    rw [hnwc, pyInt, if_pos hq]
    exact Int.floor_nonneg.mpr hq
  have hnwcle : nwc ≤ (size : ℤ) := by
    rw [hnwc, pyInt, if_pos hq]
    have h1 : (size : ℚ) * ratio ≤ (size : ℚ) :=
      mul_le_of_le_one_right (Nat.cast_nonneg size) hr1
    have h2 := Int.floor_le_floor h1
    rwa [Int.floor_natCast] at h2
  have hrc0 : 0 ≤ rc := by rw [hrc]; omega
  have hrcle : rc ≤ (size : ℤ) := by rw [hrc]; omega
  have hs1len : session1.length ≤ size := by
    rw [hs1, List.length_map, pyTake, if_pos hrc0]
    calc (sorted.take rc.toNat).length ≤ rc.toNat := List.length_take_le _ _
    _ ≤ size := Int.toNat_le.mpr hrcle
  exact sessionFinal_length_le size session1 part.2.2 sample hsamplelen hs1len

theorem sessionWords_all_unseen (now : ℚ) (m : WordManager) (p : Progress)
    (size : ℕ) (ratio : ℚ) (sample : List String → ℕ → List String)
    (hsamplelen : ∀ l n, (sample l n).length = min n l.length)
    (hall : ∀ v ∈ m.words.map (fun w => w.word),
      (statsOrZero p v).last_seen = none)
    (hsz : size ≤ m.words.length) :
    (sessionWords now m p size ratio sample).length = size := by
  unfold sessionWords
  set names := m.words.map (fun w => w.word) with hnames
  set dres := get_due_words now p names with hdres
  set part := partitionLoop dres.2 dres.1 names with hpart
  set nwc := pyInt ((size : ℚ) * ratio) with hnwc
  set rc := (size : ℤ) - nwc with hrc
  set prioRes :=
    if part.2.1 = [] then (part.1, ([] : List (String × ℚ)))
    else priorityLoop now part.1 part.2.1 with hprio
  set sorted := List.insertionSort prioGe prioRes.2 with hsorted
  set session1 := (pyTake sorted rc).map
    (fun x : String × ℚ => x.1) with hs1
  have hallv : ∀ v ∈ names, (statsOrZero dres.1 v).last_seen = none := by
    intro v hv
    rw [hdres, statsOrZero_get_due_words]
    exact hall v hv
  have hseen : part.2.1 = [] := by
    rw [hpart, partitionLoop_seen]
    refine List.filter_eq_nil_iff.mpr ?_
    intro a ha
    have h1 := hallv a ha
    simp [h1]
  have hunseen : part.2.2 = names := by
    rw [hpart, partitionLoop_unseen]
    refine List.filter_eq_self.mpr ?_
    intro a ha
    have h1 := hallv a ha
    simp [h1]
  have hs1nil : session1 = [] := by
    have hpr2 : prioRes.2 = [] := by rw [hprio, if_pos hseen]
    rw [hs1, hsorted, hpr2]
    simp [pyTake]
  refine sessionFinal_length_all size session1 part.2.2 sample hsamplelen hs1nil ?_
  rw [hunseen, hnames, List.length_map]
  exact hsz

theorem pyTake_nil {α : Type} (n : ℤ) : pyTake ([] : List α) n = [] := by
  simp [pyTake]

/-- Claim C2 counterexample: a one-entry catalog whose entry has been
reviewed and is not yet due yields an empty session for
`session_size = 1` (with the default `new_words_ratio = 0.3`, a valid
sample and a valid shuffle), although the catalog size M = 1 is at
least N = 1 — so "exactly N items whenever M ≥ N" fails. -/
theorem claim_C2_counterexample :
    oneCatalog.words.length = 1 ∧
    (get_review_session 10 oneCatalog seenStore 1 (3/10) takeSample id).2.length
      = 0 := by
  refine ⟨rfl, ?_⟩
  rw [get_review_session_snd]
  have hpy : pyInt (((1 : ℕ) : ℚ) * (3 / 10)) = 0 := by
    norm_num [pyInt]
  have h : sessionWords 10 oneCatalog seenStore 1 (3/10) takeSample = [] := by
    unfold sessionWords
    rw [hpy]
    rfl
  rw [h]
  rfl

/-- Claim C2 (amended): for any valid sample (a permutation of a
sublist of the population, of the requested length) and shuffle (a
permutation), any `new_words_ratio` in `[0, 1]` and any catalog with
pairwise-distinct word texts, `get_review_session` returns a sequence
of length ≤ `session_size` with pairwise-distinct entries; it returns
exactly `session_size` items whenever the catalog has at least
`session_size` entries and every entry is unseen.  (With seen entries
the session can be shorter even when M ≥ N: seen words that are not
due are dropped entirely, and due words beyond the review quota are
not replaced by new words.) -/
theorem claim_C2_session (now : ℚ) (m : WordManager) (p : Progress)
    (size : ℕ) (ratio : ℚ) (sample : List String → ℕ → List String)
    (shuffle : List (Option Item) → List (Option Item))
    (hsample : ∀ l n, List.Subperm (sample l n) l)
    (hsamplelen : ∀ l n, (sample l n).length = min n l.length)
    (hshuffle : ∀ l : List (Option Item), List.Perm (shuffle l) l)
    (hr0 : 0 ≤ ratio) (hr1 : ratio ≤ 1)
    (hnd : (m.words.map (fun w => w.word)).Nodup) :
    (get_review_session now m p size ratio sample shuffle).2.length ≤ size ∧
    (get_review_session now m p size ratio sample shuffle).2.Nodup ∧
    ((∀ v ∈ m.words.map (fun w => w.word),
        (statsOrZero p v).last_seen = none) →
      size ≤ m.words.length →
      (get_review_session now m p size ratio sample shuffle).2.length = size) := by
  have hlen : (get_review_session now m p size ratio sample shuffle).2.length =
      (sessionWords now m p size ratio sample).length := by
    rw [get_review_session_snd, (hshuffle _).length_eq, List.length_map]
  refine ⟨?_, ?_, ?_⟩
  · rw [hlen]
    exact sessionWords_length_le now m p size ratio sample hsamplelen hr0 hr1
  · rw [get_review_session_snd]
    refine ((hshuffle _).nodup_iff).mpr ?_
    refine List.Nodup.map_on ?_
      (sessionWords_nodup now m p size ratio sample hnd hsample)
    intro x hx y hy heq
    have hxn := sessionWords_subset now m p size ratio sample hsample x hx
    have hyn := sessionWords_subset now m p size ratio sample hsample y hy
    rcases get_word_of_mem_words m x hxn with ⟨itx, hitx⟩
    rcases get_word_of_mem_words m y hyn with ⟨ity, hity⟩
    rcases get_word_some_mem m x itx hitx with ⟨_, hwx⟩
    rcases get_word_some_mem m y ity hity with ⟨_, hwy⟩
    rw [hitx, hity] at heq
    have hit : itx = ity := Option.some.inj heq
    rw [← hwx, ← hwy, hit]
  · intro hall hsz
    rw [hlen]
    exact sessionWords_all_unseen now m p size ratio sample hsamplelen hall hsz

/-- Claim C2 witness: an all-unseen one-entry catalog with
`session_size = 1` and the default ratio produces exactly one item,
through `claim_C2_session`. -/
theorem claim_C2_session_witness :
    (get_review_session 0 oneCatalog emptyProgress 1 (3/10) takeSample
      id).2.length = 1 :=
  (claim_C2_session 0 oneCatalog emptyProgress 1 (3/10) takeSample id
      (fun l n => (List.take_sublist n l).subperm)
      (fun l n => List.length_take n l)
      (fun l => List.Perm.refl l)
      (by norm_num) (by norm_num) (by decide)).2.2
    (by decide) (by decide)

/-- Claim C9 witness: on an all-unseen one-entry catalog the session
is `[some oneItem]`, and its single element resolves to a catalog
entry, through `claim_C9_resolution`. -/
theorem claim_C9_resolution_witness :
    ∃ it, (some oneItem : Option Item) = some it ∧ it ∈ oneCatalog.words :=
  claim_C9_resolution 0 oneCatalog emptyProgress 1 0 takeSample id
    (fun l n => (List.take_sublist n l).subperm)
    (fun l => List.Perm.refl l)
    (some oneItem)
    (by
      rw [get_review_session_snd]
      have hpy : pyInt (((1 : ℕ) : ℚ) * 0) = 0 := by
        norm_num [pyInt]
      have h : sessionWords 0 oneCatalog emptyProgress 1 0 takeSample
          = ["alpha"] := by
        unfold sessionWords
        rw [hpy]
        rfl
      rw [h]
      simp [get_word, word_index, oneCatalog, oneItem, alInsert, alLookup,
        List.find?])
